import Mathlib

/-!
Shallow embedding of `examples/nlp/text_classification_with_transformer.ipynb`.

The notebook builds a Transformer-based binary text classifier from Keras
layers.  We embed the numerics over an arbitrary `LinearOrderedField R`;
transcendental functions that the framework supplies (`exp`, `sqrt`, `log`)
are passed as explicit function parameters so that every definition stays
computable and can be evaluated at rational inputs.

Sequences of token ids are `List ℕ`; a sequence of feature vectors is a
`List (List R)` (one inner list per position).
-/

set_option autoImplicit false
set_option maxRecDepth 100000

namespace TextClassifier

set_option linter.unusedSectionVars false

variable {R : Type} [LinearOrderedField R]

/-- A feature vector: one row of a hidden representation. -/
abbrev Vec (R : Type) := List R

/-- A sequence of feature vectors (sequence length × embedding dimension). -/
abbrev SeqV (R : Type) := List (Vec R)

/-- Dot product of two vectors (truncating to the shorter length). -/
def dot (a b : Vec R) : R := (List.zipWith (· * ·) a b).sum

/-- Element-wise sum of two vectors. -/
def addVec (a b : Vec R) : Vec R := List.zipWith (· + ·) a b

/-- Matrix–vector product: one dot product per row of `W`. -/
def matVec (W : SeqV R) (x : Vec R) : Vec R := W.map (fun row => dot row x)

/-- Scale a vector by a constant. -/
def scaleVec (c : R) (v : Vec R) : Vec R := v.map (fun a => c * a)

/-- Position-wise sum of a list of vectors. -/
def sumVecs : SeqV R → Vec R
  | [] => []
  | [v] => v
  | v :: rest => addVec v (sumVecs rest)

/-- Element-wise sum of two sequences of vectors (`inputs + attn_output`). -/
def seqAdd (a b : SeqV R) : SeqV R := List.zipWith addVec a b

/-- The `relu` activation. -/
def relu (x : R) : R := max x 0

/-- A Keras `Dense` layer on one vector: affine map followed by the
activation applied element-wise. -/
def denseV (act : R → R) (W : SeqV R) (b : Vec R) (x : Vec R) : Vec R :=
  (addVec (matVec W x) b).map act

/-- A `Dense` layer mapped over every position of a sequence. -/
def denseS (act : R → R) (W : SeqV R) (b : Vec R) (s : SeqV R) : SeqV R :=
  s.map (denseV act W b)

/-- Softmax over one vector, with the framework's `exp` passed in. -/
def softmaxV (ex : R → R) (z : Vec R) : Vec R :=
  z.map (fun v => ex v / (z.map ex).sum)

/-- Multiply each entry of a vector by a mask value indexed from `j`. -/
def maskVec (m : ℕ → R) (j : ℕ) : Vec R → Vec R
  | [] => []
  | a :: t => m j * a :: maskVec m (j + 1) t

/-- Multiply each row of a sequence by a row mask, rows indexed from `i`. -/
def maskRows (mask : ℕ → ℕ → R) (i : ℕ) : SeqV R → SeqV R
  | [] => []
  | v :: t => maskVec (mask i) 0 v :: maskRows mask (i + 1) t

/-- A Keras `Dropout` layer on a sequence of vectors: element-wise
multiplication by an arbitrary mask function of the position.  The mask
`fun _ _ => 1` is inference mode; a training-time mask scales kept entries
by `1/(1-rate)` and zeroes dropped ones.  The shape is always preserved. -/
def dropoutS (mask : ℕ → ℕ → R) (s : SeqV R) : SeqV R := maskRows mask 0 s

/-- `Dropout` on a single pooled vector. -/
def dropoutV (mask : ℕ → R) (v : Vec R) : Vec R := maskVec mask 0 v

/-- Keras `LayerNormalization` over the last axis of one vector:
normalize by mean and variance, then scale by `γ` and shift by `β`.
`sq` is the framework's square root. -/
def layerNormV (sq : R → R) (eps : R) (g bt : Vec R) (x : Vec R) : Vec R :=
  let mu := x.sum / (x.length : R)
  let vr := (x.map (fun a => (a - mu) ^ 2)).sum / (x.length : R)
  List.zipWith (fun (gb : R × R) a => gb.1 * ((a - mu) / sq (vr + eps)) + gb.2)
    (g.zip bt) x

/-- `LayerNormalization` mapped over every position. -/
def layerNormS (sq : R → R) (eps : R) (g bt : Vec R) (s : SeqV R) : SeqV R :=
  s.map (layerNormV sq eps g bt)

/-! ### Dataset preparation

`keras.utils.pad_sequences(xs, maxlen=maxlen)` with its default arguments
(`padding="pre"`, `truncating="pre"`, `value=0`): a sequence longer than
`maxlen` keeps its last `maxlen` entries, a shorter one is left-padded
with `0`. -/

/-- `pad_sequences` on one sequence (defaults: pre-padding, pre-truncation,
pad value `0`). -/
def padOne (ml : ℕ) (s : List ℕ) : List ℕ :=
  if ml ≤ s.length then s.drop (s.length - ml)
  else List.replicate (ml - s.length) 0 ++ s

/-- `keras.utils.pad_sequences` over a dataset. -/
def pad_sequences (ml : ℕ) (seqs : List (List ℕ)) : List (List ℕ) :=
  seqs.map (padOne ml)

/-- `vocab_size = 20000  # Only consider the top 20k words`. -/
def vocab_size : ℕ := 20000

/-- `maxlen = 200  # Only consider the first 200 words of each movie review`. -/
def maxlen : ℕ := 200

/-- `embed_dim = 32  # Embedding size for each token`. -/
def embed_dim : ℕ := 32

/-- `num_heads = 2  # Number of attention heads`. -/
def num_heads : ℕ := 2

/-- `ff_dim = 32  # Hidden layer size in feed forward network`. -/
def ff_dim : ℕ := 32

theorem padOne_length (ml : ℕ) (s : List ℕ) : (padOne ml s).length = ml := by
  unfold padOne
  split
  · next h =>
      rw [List.length_drop]
      omega
  · next h =>
      rw [List.length_append, List.length_replicate]
      omega

theorem padOne_mem (ml : ℕ) (s : List ℕ) {a : ℕ} (ha : a ∈ padOne ml s) :
    a = 0 ∨ a ∈ s := by
  unfold padOne at ha
  split at ha
  · exact Or.inr (List.mem_of_mem_drop ha)
  · rcases List.mem_append.mp ha with h | h
    · exact Or.inl (List.eq_of_mem_replicate h)
    · exact Or.inr h

/-! ### TokenAndPositionEmbedding

```
class TokenAndPositionEmbedding(layers.Layer):
    def __init__(self, maxlen, vocab_size, embed_dim):
        self.token_emb = layers.Embedding(input_dim=vocab_size, output_dim=embed_dim)
        self.pos_emb = layers.Embedding(input_dim=maxlen, output_dim=embed_dim)

    def call(self, x):
        maxlen = tf.shape(x)[-1]
        positions = tf.range(start=0, limit=maxlen, delta=1)
        positions = self.pos_emb(positions)
        x = self.token_emb(x)
        return x + positions
```

An `Embedding(input_dim=n, ...)` layer is a lookup table with `n` rows; a
lookup of an id outside `[0, n)` is the layer's error branch (undefined
behavior delegated to the framework), which we model as `none`. -/

/-- One `Embedding` lookup: row `id` of the table, `none` out of range. -/
def embLookup (table : SeqV R) (id : ℕ) : Option (Vec R) := table.get? id

/-- An `Embedding` layer applied element-wise to a list of ids, failing if
any id is out of range. -/
def embedIds (table : SeqV R) : List ℕ → Option (SeqV R)
  | [] => some []
  | id :: rest =>
    match embLookup table id, embedIds table rest with
    | some v, some vs => some (v :: vs)
    | _, _ => none

/-- The state of `TokenAndPositionEmbedding` after `__init__`: the two
embedding tables.  `token_emb` has `vocab_size` rows and `pos_emb` has
`maxlen` rows, each row of length `embed_dim`. -/
structure TokenAndPositionEmbedding (R : Type) where
  token_emb : SeqV R
  pos_emb : SeqV R

/-- `TokenAndPositionEmbedding.call`: the number of positions is the
runtime length of `x` (`tf.shape(x)[-1]`), the positions are
`0, 1, ..., len-1`, and the result is the element-wise sum of the token
embeddings and the position embeddings. -/
def TokenAndPositionEmbedding.call (l : TokenAndPositionEmbedding R)
    (x : List ℕ) : Option (SeqV R) :=
  let ml := x.length
  let positions := List.range ml
  match embedIds l.pos_emb positions, embedIds l.token_emb x with
  | some pos, some xe => some (seqAdd xe pos)
  | _, _ => none

theorem embedIds_eq_some (table : SeqV R) (ids : List ℕ)
    (h : ∀ id ∈ ids, id < table.length) :
    embedIds table ids = some (ids.map (fun id => table.getD id [])) := by
  induction ids with
  | nil => rfl
  | cons id rest ih =>
    have hid : id < table.length := h id (List.mem_cons_self id rest)
    have hrest : ∀ i ∈ rest, i < table.length :=
      fun i hi => h i (List.mem_cons_of_mem id hi)
    rw [List.map_cons]
    unfold embedIds
    rw [ih hrest]
    unfold embLookup
    rw [List.get?_eq_getElem?, List.getElem?_eq_getElem hid]
    simp [List.getD_eq_getElem _ _ hid, List.getElem?_eq_getElem hid]

theorem embedIds_isSome_iff (table : SeqV R) (ids : List ℕ) :
    (embedIds table ids).isSome ↔ ∀ id ∈ ids, id < table.length := by
  induction ids with
  | nil => simp [embedIds]
  | cons id rest ih =>
    constructor
    · intro hs i hi
      unfold embedIds at hs
      rcases hlk : embLookup table id with _ | v
      · rw [hlk] at hs; simp at hs
      · rcases hr : embedIds table rest with _ | vs
        · rw [hlk, hr] at hs; simp at hs
        · have hrest := ih.mp (by rw [hr]; rfl)
          rcases List.mem_cons.mp hi with rfl | hmem
          · rcases Nat.lt_or_ge i table.length with hlt | hge
            · exact hlt
            · exfalso
              unfold embLookup at hlk
              rw [List.get?_eq_none.mpr hge] at hlk
              exact Option.noConfusion hlk
          · exact hrest i hmem
    · intro h
      rw [embedIds_eq_some table (id :: rest) h]
      rfl

theorem call_eq_some (l : TokenAndPositionEmbedding R) (x : List ℕ)
    (hids : ∀ id ∈ x, id < l.token_emb.length)
    (hlen : x.length ≤ l.pos_emb.length) :
    l.call x = some (seqAdd (x.map (fun id => l.token_emb.getD id []))
      ((List.range x.length).map (fun i => l.pos_emb.getD i []))) := by
  have hpos : ∀ i ∈ List.range x.length, i < l.pos_emb.length :=
    fun i hi => lt_of_lt_of_le (List.mem_range.mp hi) hlen
  simp only [TokenAndPositionEmbedding.call]
  rw [embedIds_eq_some _ _ hpos, embedIds_eq_some _ _ hids]

theorem call_isSome_aux (l : TokenAndPositionEmbedding R) (x : List ℕ) :
    (l.call x).isSome = ((embedIds l.pos_emb (List.range x.length)).isSome
      && (embedIds l.token_emb x).isSome) := by
  simp only [TokenAndPositionEmbedding.call]
  rcases embedIds l.pos_emb (List.range x.length) with _ | pos <;>
    rcases embedIds l.token_emb x with _ | xe <;> rfl

theorem call_isSome_iff (l : TokenAndPositionEmbedding R) (x : List ℕ) :
    (l.call x).isSome ↔
      x.length ≤ l.pos_emb.length ∧ ∀ id ∈ x, id < l.token_emb.length := by
  rw [call_isSome_aux, Bool.and_eq_true, embedIds_isSome_iff, embedIds_isSome_iff]
  constructor
  · rintro ⟨h1, h2⟩
    refine ⟨?_, h2⟩
    by_contra hgt
    push_neg at hgt
    exact absurd (h1 _ (List.mem_range.mpr hgt)) (lt_irrefl _)
  · rintro ⟨h1, h2⟩
    exact ⟨fun i hi => lt_of_lt_of_le (List.mem_range.mp hi) h1, h2⟩

theorem seqAdd_getD (a b : SeqV R) (i : ℕ) (ha : i < a.length) (hb : i < b.length) :
    (seqAdd a b).getD i [] = addVec (a.getD i []) (b.getD i []) := by
  have hlen : i < (seqAdd a b).length := by
    unfold seqAdd; rw [List.length_zipWith]; omega
  rw [List.getD_eq_getElem _ _ hlen, List.getD_eq_getElem _ _ ha,
    List.getD_eq_getElem _ _ hb]
  unfold seqAdd
  exact List.getElem_zipWith

theorem call_out_spec (l : TokenAndPositionEmbedding R) (x : List ℕ)
    (hids : ∀ id ∈ x, id < l.token_emb.length)
    (hlen : x.length ≤ l.pos_emb.length)
    (out : SeqV R) (hout : l.call x = some out) :
    out.length = x.length ∧ ∀ i, i < x.length →
      out.getD i [] = addVec (l.token_emb.getD (x.getD i 0) [])
        (l.pos_emb.getD i []) := by
  have hval := call_eq_some l x hids hlen
  rw [hval] at hout
  have hout' : out = seqAdd (x.map (fun id => l.token_emb.getD id []))
      ((List.range x.length).map (fun i => l.pos_emb.getD i [])) :=
    (Option.some.inj hout).symm
  subst hout'
  constructor
  · unfold seqAdd
    rw [List.length_zipWith, List.length_map, List.length_map, List.length_range]
    omega
  · intro i hi
    have hA : i < (x.map (fun id => l.token_emb.getD id [])).length := by
      rw [List.length_map]; exact hi
    have hB : i < ((List.range x.length).map (fun i => l.pos_emb.getD i [])).length := by
      rw [List.length_map, List.length_range]; exact hi
    rw [seqAdd_getD _ _ i hA hB]
    have h1 : (x.map (fun id => l.token_emb.getD id [])).getD i []
        = l.token_emb.getD (x.getD i 0) [] := by
      rw [List.getD_eq_getElem _ _ hA, List.getElem_map, List.getD_eq_getElem _ _ hi]
    have h2 : ((List.range x.length).map (fun i => l.pos_emb.getD i [])).getD i []
        = l.pos_emb.getD i [] := by
      rw [List.getD_eq_getElem _ _ hB, List.getElem_map, List.getElem_range]
    rw [h1, h2]

/-- C2: for every input sequence of token ids (with all ids in range of the
token table and the sequence no longer than the position table),
`TokenAndPositionEmbedding.call` returns the element-wise sum of the
token-embedding lookup of each id and the position-embedding lookup of its
position, positions being indexed `0 .. length-1`. -/
theorem claimC2_embedding_elementwise_sum (l : TokenAndPositionEmbedding R)
    (x : List ℕ)
    (hids : ∀ id ∈ x, id < l.token_emb.length)
    (hlen : x.length ≤ l.pos_emb.length) :
    ∃ out, l.call x = some out ∧ out.length = x.length ∧
      ∀ i, i < x.length →
        out.getD i [] = addVec (l.token_emb.getD (x.getD i 0) [])
          (l.pos_emb.getD i []) :=
  ⟨_, call_eq_some l x hids hlen,
    call_out_spec l x hids hlen _ (call_eq_some l x hids hlen)⟩

/-- Witness for C2 at a concrete instance over `ℚ`: a two-row token table,
a three-row position table and the input `[1, 0]`. -/
theorem claimC2_embedding_elementwise_sum_witness :
    (∀ id ∈ ([1, 0] : List ℕ), id < ([[(1:ℚ)], [2]] : SeqV ℚ).length) ∧
    ([1, 0] : List ℕ).length ≤ ([[(10:ℚ)], [20], [30]] : SeqV ℚ).length ∧
    ∃ out, (TokenAndPositionEmbedding.mk ([[(1:ℚ)], [2]]) ([[10], [20], [30]])).call [1, 0]
        = some out ∧ out.length = ([1, 0] : List ℕ).length ∧
      ∀ i, i < ([1, 0] : List ℕ).length →
        out.getD i [] = addVec (([[(1:ℚ)], [2]] : SeqV ℚ).getD (([1, 0] : List ℕ).getD i 0) [])
          (([[(10:ℚ)], [20], [30]] : SeqV ℚ).getD i []) :=
  ⟨by decide, by decide,
    claimC2_embedding_elementwise_sum
      (TokenAndPositionEmbedding.mk ([[(1:ℚ)], [2]]) ([[10], [20], [30]]))
      [1, 0] (by decide) (by decide)⟩

/-- C8: when every token id is in `[0, vocab_size)` (the token table's row
count) and the input length is at most `maxlen` (the position table's row
count), `TokenAndPositionEmbedding.call` hits no error branch: it returns
`some` result. -/
theorem claimC8_embedding_no_error_in_range (l : TokenAndPositionEmbedding R)
    (x : List ℕ)
    (hids : ∀ id ∈ x, id < l.token_emb.length)
    (hlen : x.length ≤ l.pos_emb.length) :
    (l.call x).isSome :=
  (call_isSome_iff l x).mpr ⟨hlen, hids⟩

/-- Witness for C8 at a concrete instance over `ℚ`. -/
theorem claimC8_embedding_no_error_in_range_witness :
    (∀ id ∈ ([0, 1, 1] : List ℕ), id < ([[(1:ℚ)], [2]] : SeqV ℚ).length) ∧
    ([0, 1, 1] : List ℕ).length ≤ ([[(10:ℚ)], [20], [30]] : SeqV ℚ).length ∧
    ((TokenAndPositionEmbedding.mk ([[(1:ℚ)], [2]]) ([[10], [20], [30]])).call
      [0, 1, 1]).isSome :=
  ⟨by decide, by decide,
    claimC8_embedding_no_error_in_range
      (TokenAndPositionEmbedding.mk ([[(1:ℚ)], [2]]) ([[10], [20], [30]]))
      [0, 1, 1] (by decide) (by decide)⟩

/-- C9: `TokenAndPositionEmbedding.call` derives the number of positions
from the runtime length `L` of its input, not from the constructor's
`maxlen`: with a position table of exactly `ml` rows and all token ids in
range, the call succeeds exactly when `L ≤ ml`, and on success it adds the
position embeddings for indices `0 .. L-1`. -/
theorem claimC9_positions_from_runtime_length (l : TokenAndPositionEmbedding R)
    (ml : ℕ) (hpos : l.pos_emb.length = ml) (x : List ℕ)
    (hids : ∀ id ∈ x, id < l.token_emb.length) :
    ((l.call x).isSome ↔ x.length ≤ ml) ∧
    ∀ out, l.call x = some out → out.length = x.length ∧
      ∀ i, i < x.length →
        out.getD i [] = addVec (l.token_emb.getD (x.getD i 0) [])
          (l.pos_emb.getD i []) := by
  subst hpos
  constructor
  · rw [call_isSome_iff]
    exact ⟨fun h => h.1, fun h => ⟨h, hids⟩⟩
  · intro out hout
    have hs : (l.call x).isSome := by rw [hout]; rfl
    have hlen : x.length ≤ l.pos_emb.length := ((call_isSome_iff l x).mp hs).1
    exact call_out_spec l x hids hlen out hout

/-- Witness for C9 at a concrete instance over `ℚ`: the position table has
3 rows, and the input has runtime length 2 ≤ 3. -/
theorem claimC9_positions_from_runtime_length_witness :
    (([[(10:ℚ)], [20], [30]] : SeqV ℚ).length = 3) ∧
    (∀ id ∈ ([1, 0] : List ℕ), id < ([[(1:ℚ)], [2]] : SeqV ℚ).length) ∧
    ((((TokenAndPositionEmbedding.mk ([[(1:ℚ)], [2]]) ([[10], [20], [30]])).call
        [1, 0]).isSome ↔ ([1, 0] : List ℕ).length ≤ 3) ∧
      ∀ out, (TokenAndPositionEmbedding.mk ([[(1:ℚ)], [2]]) ([[10], [20], [30]])).call
          [1, 0] = some out → out.length = ([1, 0] : List ℕ).length ∧
        ∀ i, i < ([1, 0] : List ℕ).length →
          out.getD i [] = addVec (([[(1:ℚ)], [2]] : SeqV ℚ).getD (([1, 0] : List ℕ).getD i 0) [])
            (([[(10:ℚ)], [20], [30]] : SeqV ℚ).getD i [])) :=
  ⟨by decide, by decide,
    claimC9_positions_from_runtime_length
      (TokenAndPositionEmbedding.mk ([[(1:ℚ)], [2]]) ([[10], [20], [30]]))
      3 (by decide) [1, 0] (by decide)⟩

/-- C5: after dataset preparation every token sequence has the fixed
length `200` (shorter sequences padded, longer ones truncated) and every
token id lies in `[0, vocab_size)` with `vocab_size = 20000`.  The
hypothesis is the contract of `keras.datasets.imdb.load_data(num_words=vocab_size)`:
every raw id is already `< vocab_size`. -/
theorem claimC5_prepared_dataset_shape (seqs : List (List ℕ))
    (hv : ∀ s ∈ seqs, ∀ id ∈ s, id < vocab_size) :
    vocab_size = 20000 ∧ maxlen = 200 ∧
    ∀ t ∈ pad_sequences maxlen seqs,
      t.length = 200 ∧ ∀ id ∈ t, id < vocab_size := by
  refine ⟨rfl, rfl, ?_⟩
  intro t ht
  rcases List.mem_map.mp ht with ⟨s, hs, rfl⟩
  refine ⟨padOne_length _ _, ?_⟩
  intro id hid
  rcases padOne_mem _ _ hid with rfl | hmem
  · decide
  · exact hv s hs id hmem

/-- Witness for C5 on a concrete two-review dataset (one short, one long). -/
theorem claimC5_prepared_dataset_shape_witness :
    (∀ s ∈ ([[1, 2, 3], List.replicate 250 7] : List (List ℕ)),
      ∀ id ∈ s, id < vocab_size) ∧
    (vocab_size = 20000 ∧ maxlen = 200 ∧
      ∀ t ∈ pad_sequences maxlen ([[1, 2, 3], List.replicate 250 7] : List (List ℕ)),
        t.length = 200 ∧ ∀ id ∈ t, id < vocab_size) :=
  ⟨by decide,
    claimC5_prepared_dataset_shape ([[1, 2, 3], List.replicate 250 7]) (by decide)⟩

/-- C10: `pad_sequences` with the framework defaults pads and truncates at
the front: a sequence of length ≥ 200 keeps its last 200 entries (a suffix
of the original), and a shorter one is left-padded with the id `0`, so the
real tokens occupy the trailing positions. -/
theorem claimC10_pre_padding_and_truncation (s : List ℕ) :
    (200 ≤ s.length →
      (padOne 200 s).length = 200 ∧
      padOne 200 s = s.drop (s.length - 200) ∧
      ∃ front, front ++ padOne 200 s = s) ∧
    (s.length < 200 →
      (padOne 200 s).length = 200 ∧
      padOne 200 s = List.replicate (200 - s.length) 0 ++ s ∧
      (padOne 200 s).drop (200 - s.length) = s ∧
      ∀ j, j < 200 - s.length → (padOne 200 s).getD j 1 = 0) := by
  constructor
  · intro h
    have hdef : padOne 200 s = s.drop (s.length - 200) := by
      unfold padOne; rw [if_pos h]
    refine ⟨padOne_length _ _, hdef, ⟨s.take (s.length - 200), ?_⟩⟩
    rw [hdef]
    exact List.take_append_drop _ s
  · intro h
    have hnot : ¬ 200 ≤ s.length := by omega
    have hdef : padOne 200 s = List.replicate (200 - s.length) 0 ++ s := by
      unfold padOne; rw [if_neg hnot]
    refine ⟨padOne_length _ _, hdef, ?_, ?_⟩
    · rw [hdef]
      have hl := List.drop_left (List.replicate (200 - s.length) (0 : ℕ)) s
      rwa [List.length_replicate] at hl
    · intro j hj
      rw [hdef]
      have hj1 : j < (List.replicate (200 - s.length) (0 : ℕ)).length := by
        rw [List.length_replicate]; exact hj
      have hj2 : j < ((List.replicate (200 - s.length) (0 : ℕ)) ++ s).length := by
        rw [List.length_append]; omega
      rw [List.getD_eq_getElem _ _ hj2, List.getElem_append_left hj1,
        List.getElem_replicate]

/-- Witness for C10: a length-250 review keeps a suffix, and a length-3
review is left-padded with zeros. -/
theorem claimC10_pre_padding_and_truncation_witness :
    (200 ≤ (List.replicate 250 (3 : ℕ)).length ∧
      (padOne 200 (List.replicate 250 3)).length = 200 ∧
      padOne 200 (List.replicate 250 3)
        = (List.replicate 250 (3 : ℕ)).drop ((List.replicate 250 (3 : ℕ)).length - 200) ∧
      ∃ front, front ++ padOne 200 (List.replicate 250 3) = List.replicate 250 (3 : ℕ)) ∧
    (([9, 9, 9] : List ℕ).length < 200 ∧
      (padOne 200 [9, 9, 9]).length = 200 ∧
      padOne 200 [9, 9, 9] = List.replicate (200 - ([9, 9, 9] : List ℕ).length) 0 ++ [9, 9, 9] ∧
      (padOne 200 [9, 9, 9]).drop (200 - ([9, 9, 9] : List ℕ).length) = [9, 9, 9] ∧
      ∀ j, j < 200 - ([9, 9, 9] : List ℕ).length → (padOne 200 [9, 9, 9]).getD j 1 = 0) :=
  ⟨⟨by decide, (claimC10_pre_padding_and_truncation (List.replicate 250 3)).1 (by decide)⟩,
    ⟨by decide, (claimC10_pre_padding_and_truncation [9, 9, 9]).2 (by decide)⟩⟩

/-! ### Classifier head

```
x = layers.GlobalAveragePooling1D()(x)
x = layers.Dropout(0.1)(x)
x = layers.Dense(20, activation="relu")(x)
x = layers.Dropout(0.1)(x)
outputs = layers.Dense(2, activation="softmax")(x)
```
-/

/-- `GlobalAveragePooling1D`: the mean of the sequence across positions. -/
def globalAveragePooling1D (s : SeqV R) : Vec R :=
  (sumVecs s).map (fun a => a / (s.length : R))

/-- The classifier head of the model: average pooling, dropout, a dense
layer with `relu`, dropout again, then a dense layer with `softmax`. -/
def classifierHead (ex : R → R) (m1 m2 : ℕ → R) (W1 : SeqV R) (b1 : Vec R)
    (W2 : SeqV R) (b2 : Vec R) (s : SeqV R) : Vec R :=
  let pooled := globalAveragePooling1D s
  let d1 := dropoutV m1 pooled
  let h := denseV relu W1 b1 d1
  let d2 := dropoutV m2 h
  softmaxV ex (addVec (matVec W2 d2) b2)

theorem sum_map_div (l : List R) (c : R) :
    (l.map (fun v => v / c)).sum = l.sum / c := by
  induction l with
  | nil => simp
  | cons a t ih => simp [ih, add_div]

theorem softmaxV_length (ex : R → R) (z : Vec R) :
    (softmaxV ex z).length = z.length := List.length_map _ _

theorem exp_sum_pos (ex : R → R) (hex : ∀ t, 0 < ex t) (z : Vec R)
    (hz : z ≠ []) : 0 < (z.map ex).sum := by
  apply List.sum_pos
  · intro a ha
    rcases List.mem_map.mp ha with ⟨v, _, rfl⟩
    exact hex v
  · simpa using hz

theorem softmaxV_sum (ex : R → R) (hex : ∀ t, 0 < ex t) (z : Vec R)
    (hz : z ≠ []) : (softmaxV ex z).sum = 1 := by
  have hS := exp_sum_pos ex hex z hz
  unfold softmaxV
  have hcomp : (fun v => ex v / (z.map ex).sum)
      = (fun v => v / (z.map ex).sum) ∘ ex := rfl
  rw [hcomp, ← List.map_map, sum_map_div]
  exact div_self (ne_of_gt hS)

theorem softmaxV_mem_bounds (ex : R → R) (hex : ∀ t, 0 < ex t) (z : Vec R)
    {p : R} (hp : p ∈ softmaxV ex z) : 0 ≤ p ∧ p ≤ 1 := by
  rcases List.mem_map.mp hp with ⟨v, hv, rfl⟩
  have hz : z ≠ [] := List.ne_nil_of_mem hv
  have hS := exp_sum_pos ex hex z hz
  constructor
  · exact div_nonneg (le_of_lt (hex v)) (le_of_lt hS)
  · rw [div_le_one hS]
    exact List.single_le_sum
      (fun a ha => by
        rcases List.mem_map.mp ha with ⟨w, _, rfl⟩
        exact le_of_lt (hex w))
      _ (List.mem_map.mpr ⟨v, hv, rfl⟩)

theorem classifierHead_props (ex : R → R) (m1 m2 : ℕ → R)
    (W1 : SeqV R) (b1 : Vec R) (W2 : SeqV R) (b2 : Vec R) (s : SeqV R)
    (hex : ∀ t, 0 < ex t) (hW2 : W2.length = 2) (hb2 : b2.length = 2) :
    (classifierHead ex m1 m2 W1 b1 W2 b2 s).length = 2 ∧
    (classifierHead ex m1 m2 W1 b1 W2 b2 s).sum = 1 ∧
    ∀ p ∈ classifierHead ex m1 m2 W1 b1 W2 b2 s, 0 ≤ p ∧ p ≤ 1 := by
  set z := addVec (matVec W2 (dropoutV m2 (denseV relu W1 b1
    (dropoutV m1 (globalAveragePooling1D s))))) b2 with hzdef
  have hzlen : z.length = 2 := by
    rw [hzdef]
    unfold addVec matVec
    rw [List.length_zipWith, List.length_map, hW2, hb2]
    exact min_self 2
  have hzne : z ≠ [] := by
    intro h
    rw [h] at hzlen
    simp at hzlen
  refine ⟨?_, ?_, ?_⟩
  · show (softmaxV ex z).length = 2
    rw [softmaxV_length, hzlen]
  · exact softmaxV_sum ex hex z hzne
  · intro p hp
    exact softmaxV_mem_bounds ex hex z hp

/-- C4: the classifier head is exactly average-pooling, dropout, a dense
layer with `relu`, dropout, and a final dense layer with `softmax`; with
the final layer having 2 units, its output is a probability distribution
over exactly 2 classes: length 2, every component in `[0,1]`, components
summing to 1 (exactly, in ideal arithmetic). -/
theorem claimC4_classifier_head_distribution (ex : R → R) (m1 m2 : ℕ → R)
    (W1 : SeqV R) (b1 : Vec R) (W2 : SeqV R) (b2 : Vec R) (s : SeqV R)
    (hex : ∀ t, 0 < ex t) (hW2 : W2.length = 2) (hb2 : b2.length = 2) :
    classifierHead ex m1 m2 W1 b1 W2 b2 s
      = softmaxV ex (addVec (matVec W2 (dropoutV m2 (denseV relu W1 b1
          (dropoutV m1 (globalAveragePooling1D s))))) b2) ∧
    (classifierHead ex m1 m2 W1 b1 W2 b2 s).length = 2 ∧
    (classifierHead ex m1 m2 W1 b1 W2 b2 s).sum = 1 ∧
    ∀ p ∈ classifierHead ex m1 m2 W1 b1 W2 b2 s, 0 ≤ p ∧ p ≤ 1 :=
  ⟨rfl, classifierHead_props ex m1 m2 W1 b1 W2 b2 s hex hW2 hb2⟩

/-- Witness for C4 at a concrete instance over `ℚ` (with `exp` modelled by
the positive constant function 1, which is all the theorem requires). -/
theorem claimC4_classifier_head_distribution_witness :
    (0 : ℚ) < 1 ∧ ([[(1:ℚ)], [1]] : SeqV ℚ).length = 2 ∧
    ([(0:ℚ), 0] : Vec ℚ).length = 2 ∧
    (classifierHead (fun _ => (1:ℚ)) (fun _ => 1) (fun _ => 1)
        [[1]] [0] [[1], [1]] [0, 0] [[1]]
      = softmaxV (fun _ => (1:ℚ)) (addVec (matVec [[1], [1]]
          (dropoutV (fun _ => 1) (denseV relu [[1]] [0]
            (dropoutV (fun _ => 1) (globalAveragePooling1D [[1]]))))) [0, 0]) ∧
    (classifierHead (fun _ => (1:ℚ)) (fun _ => 1) (fun _ => 1)
        [[1]] [0] [[1], [1]] [0, 0] [[1]]).length = 2 ∧
    (classifierHead (fun _ => (1:ℚ)) (fun _ => 1) (fun _ => 1)
        [[1]] [0] [[1], [1]] [0, 0] [[1]]).sum = 1 ∧
    ∀ p ∈ classifierHead (fun _ => (1:ℚ)) (fun _ => 1) (fun _ => 1)
        [[1]] [0] [[1], [1]] [0, 0] [[1]], 0 ≤ p ∧ p ≤ 1) :=
  ⟨one_pos, by decide, by decide,
    claimC4_classifier_head_distribution (fun _ => (1:ℚ)) (fun _ => 1)
      (fun _ => 1) [[1]] [0] [[1], [1]] [0, 0] [[1]]
      (fun _ => one_pos) (by decide) (by decide)⟩

/-! ### Multi-head attention and the TransformerBlock

`layers.MultiHeadAttention(num_heads=num_heads, key_dim=embed_dim)` called
as `self.att(inputs, inputs)`: per head, project the query sequence and the
value sequence with learned matrices, form scaled dot-product attention
weights with a softmax over positions, take the weighted combination of the
value projections, concatenate the heads per position, and apply the output
projection (whose row count equals the query feature dimension). -/

/-- Weighted combination of the rows of `V` with weights `w`. -/
def weightedSum (w : Vec R) (V : SeqV R) : Vec R :=
  sumVecs (List.zipWith scaleVec w V)

/-- One attention head: scaled dot-product attention with learned query,
key and value projections. -/
def attentionHead (ex sq : R → R) (keyDim : ℕ) (Wq Wk Wv : SeqV R)
    (query value : SeqV R) : SeqV R :=
  let Q := query.map (matVec Wq)
  let K := value.map (matVec Wk)
  let V := value.map (matVec Wv)
  Q.map (fun q =>
    weightedSum (softmaxV ex (K.map (fun k => dot q k / sq (keyDim : R)))) V)

/-- `MultiHeadAttention`: run every head, concatenate the head outputs per
position, then apply the output projection `Wo`/`bo`. -/
def multiHeadAttention (ex sq : R → R) (keyDim : ℕ)
    (heads : List (SeqV R × SeqV R × SeqV R)) (Wo : SeqV R) (bo : Vec R)
    (query value : SeqV R) : SeqV R :=
  let headOuts := heads.map
    (fun h => attentionHead ex sq keyDim h.1 h.2.1 h.2.2 query value)
  ((List.range query.length).map
      (fun i => (headOuts.map (fun h => h.getD i [])).flatten)).map
    (fun v => addVec (matVec Wo v) bo)

/-- The sub-layers a `TransformerBlock` holds after `__init__`. -/
structure TransformerBlock (R : Type) where
  att : SeqV R → SeqV R → SeqV R
  ffn : SeqV R → SeqV R
  layernorm1 : SeqV R → SeqV R
  layernorm2 : SeqV R → SeqV R
  dropout1 : SeqV R → SeqV R
  dropout2 : SeqV R → SeqV R

/-- `TransformerBlock.call`, line for line:
```
attn_output = self.att(inputs, inputs)
attn_output = self.dropout1(attn_output)
out1 = self.layernorm1(inputs + attn_output)
ffn_output = self.ffn(out1)
ffn_output = self.dropout2(ffn_output)
return self.layernorm2(out1 + ffn_output)
```
-/
def TransformerBlock.call (b : TransformerBlock R) (inputs : SeqV R) : SeqV R :=
  let attn_output := b.att inputs inputs
  let attn_dropped := b.dropout1 attn_output
  let out1 := b.layernorm1 (seqAdd inputs attn_dropped)
  let ffn_output := b.ffn out1
  let ffn_dropped := b.dropout2 ffn_output
  b.layernorm2 (seqAdd out1 ffn_dropped)

/-- The learned parameters created in `TransformerBlock.__init__`:
attention head projections and output projection, the two feed-forward
layers `Dense(ff_dim, activation="relu")` and `Dense(embed_dim)`, the two
layer-normalization scales/offsets, and the two dropout masks. -/
structure BlockParams (R : Type) where
  heads : List (SeqV R × SeqV R × SeqV R)
  Wo : SeqV R
  bo : Vec R
  W1 : SeqV R
  b1 : Vec R
  W2 : SeqV R
  b2 : Vec R
  g1 : Vec R
  bt1 : Vec R
  g2 : Vec R
  bt2 : Vec R
  mask1 : ℕ → ℕ → R
  mask2 : ℕ → ℕ → R

/-- `LayerNormalization(epsilon=1e-6)`. -/
def lnEps : R := 1 / 1000000

/-- `TransformerBlock.__init__`: build the sub-layers from the learned
parameters. -/
def TransformerBlock.init (ex sq : R → R) (keyDim : ℕ) (p : BlockParams R) :
    TransformerBlock R where
  att := multiHeadAttention ex sq keyDim p.heads p.Wo p.bo
  ffn := fun s => denseS id p.W2 p.b2 (denseS relu p.W1 p.b1 s)
  layernorm1 := layerNormS sq lnEps p.g1 p.bt1
  layernorm2 := layerNormS sq lnEps p.g2 p.bt2
  dropout1 := dropoutS p.mask1
  dropout2 := dropoutS p.mask2

/-- The spec's own step order for the transformer block: (1) multi-head
self-attention of the input against itself; (2) dropout; (3) residual add
of the attention output with the original input followed by layer
normalization; (4) a two-layer feed-forward network that expands with a
nonlinearity and projects back; (5) dropout; (6) residual add of the
feed-forward output with the step-3 output followed by layer
normalization. -/
def specBlockSteps (ex sq : R → R) (keyDim : ℕ) (p : BlockParams R)
    (inputs : SeqV R) : SeqV R :=
  let step1 := multiHeadAttention ex sq keyDim p.heads p.Wo p.bo inputs inputs
  let step2 := dropoutS p.mask1 step1
  let step3 := layerNormS sq lnEps p.g1 p.bt1 (seqAdd inputs step2)
  let step4 := denseS id p.W2 p.b2 (denseS relu p.W1 p.b1 step3)
  let step5 := dropoutS p.mask2 step4
  layerNormS sq lnEps p.g2 p.bt2 (seqAdd step3 step5)

/-- C1: for every input sequence, `TransformerBlock.call` applies exactly
the spec's six steps in order: self-attention of the input against itself,
dropout, residual add with the input plus normalization, the two-layer
feed-forward network, dropout, and residual add with the step-3 output
plus normalization. -/
theorem claimC1_block_step_order (ex sq : R → R) (keyDim : ℕ)
    (p : BlockParams R) (inputs : SeqV R) :
    (TransformerBlock.init ex sq keyDim p).call inputs
      = specBlockSteps ex sq keyDim p inputs := rfl

theorem matVec_length (W : SeqV R) (x : Vec R) :
    (matVec W x).length = W.length := List.length_map _ _

theorem addVec_length (a b : Vec R) :
    (addVec a b).length = min a.length b.length := by
  unfold addVec; rw [List.length_zipWith]

theorem denseV_length (act : R → R) (W : SeqV R) (b x : Vec R) :
    (denseV act W b x).length = min W.length b.length := by
  unfold denseV
  rw [List.length_map, addVec_length, matVec_length]

theorem denseS_length (act : R → R) (W : SeqV R) (b : Vec R) (s : SeqV R) :
    (denseS act W b s).length = s.length := List.length_map _ _

theorem denseS_mem_length (act : R → R) (W : SeqV R) (b : Vec R) (s : SeqV R) :
    ∀ v ∈ denseS act W b s, v.length = min W.length b.length := by
  intro v hv
  rcases List.mem_map.mp hv with ⟨u, _, rfl⟩
  exact denseV_length act W b u

theorem maskVec_length (m : ℕ → R) (j : ℕ) (v : Vec R) :
    (maskVec m j v).length = v.length := by
  induction v generalizing j with
  | nil => rfl
  | cons a t ih => simp [maskVec, ih]

theorem maskRows_length (mask : ℕ → ℕ → R) (i : ℕ) (s : SeqV R) :
    (maskRows mask i s).length = s.length := by
  induction s generalizing i with
  | nil => rfl
  | cons v t ih => simp [maskRows, ih]

theorem maskRows_mem_length (mask : ℕ → ℕ → R) (i : ℕ) (s : SeqV R) (d : ℕ)
    (hs : ∀ v ∈ s, v.length = d) :
    ∀ v ∈ maskRows mask i s, v.length = d := by
  induction s generalizing i with
  | nil => intro v hv; simp [maskRows] at hv
  | cons u t ih =>
    intro v hv
    rcases List.mem_cons.mp hv with rfl | hmem
    · rw [maskVec_length]
      exact hs u (List.mem_cons_self u t)
    · exact ih (i + 1) (fun w hw => hs w (List.mem_cons_of_mem u hw)) v hmem

theorem dropoutS_length (mask : ℕ → ℕ → R) (s : SeqV R) :
    (dropoutS mask s).length = s.length := maskRows_length mask 0 s

theorem dropoutS_mem_length (mask : ℕ → ℕ → R) (s : SeqV R) (d : ℕ)
    (hs : ∀ v ∈ s, v.length = d) :
    ∀ v ∈ dropoutS mask s, v.length = d := maskRows_mem_length mask 0 s d hs

theorem layerNormV_length (sq : R → R) (eps : R) (g bt x : Vec R) :
    (layerNormV sq eps g bt x).length = min (min g.length bt.length) x.length := by
  simp [layerNormV, List.length_zipWith, List.length_zip]

theorem layerNormS_length (sq : R → R) (eps : R) (g bt : Vec R) (s : SeqV R) :
    (layerNormS sq eps g bt s).length = s.length := List.length_map _ _

theorem layerNormS_mem_length (sq : R → R) (eps : R) (g bt : Vec R) (d : ℕ)
    (hg : g.length = d) (hbt : bt.length = d) (s : SeqV R)
    (hs : ∀ v ∈ s, v.length = d) :
    ∀ v ∈ layerNormS sq eps g bt s, v.length = d := by
  intro v hv
  rcases List.mem_map.mp hv with ⟨u, hu, rfl⟩
  rw [layerNormV_length, hg, hbt, hs u hu, min_self, min_self]

theorem seqAdd_length (a b : SeqV R) :
    (seqAdd a b).length = min a.length b.length := by
  unfold seqAdd; rw [List.length_zipWith]

theorem seqAdd_mem_length (a b : SeqV R) (d : ℕ)
    (ha : ∀ v ∈ a, v.length = d) (hb : ∀ v ∈ b, v.length = d) :
    ∀ v ∈ seqAdd a b, v.length = d := by
  intro v hv
  unfold seqAdd at hv
  rcases List.mem_iff_getElem.mp hv with ⟨i, hi, rfl⟩
  have hia : i < a.length := by rw [List.length_zipWith] at hi; omega
  have hib : i < b.length := by rw [List.length_zipWith] at hi; omega
  rw [List.getElem_zipWith, addVec_length,
    ha _ (List.getElem_mem hia), hb _ (List.getElem_mem hib), min_self]

theorem multiHeadAttention_length (ex sq : R → R) (keyDim : ℕ)
    (heads : List (SeqV R × SeqV R × SeqV R)) (Wo : SeqV R) (bo : Vec R)
    (query value : SeqV R) :
    (multiHeadAttention ex sq keyDim heads Wo bo query value).length
      = query.length := by
  simp [multiHeadAttention]

theorem multiHeadAttention_mem_length (ex sq : R → R) (keyDim : ℕ)
    (heads : List (SeqV R × SeqV R × SeqV R)) (Wo : SeqV R) (bo : Vec R)
    (query value : SeqV R) (d : ℕ) (hWo : Wo.length = d) (hbo : bo.length = d) :
    ∀ v ∈ multiHeadAttention ex sq keyDim heads Wo bo query value,
      v.length = d := by
  intro v hv
  simp only [multiHeadAttention] at hv
  rcases List.mem_map.mp hv with ⟨u, _, rfl⟩
  rw [addVec_length, matVec_length, hWo, hbo, min_self]

/-- C3: `TransformerBlock.call` preserves the input shape exactly: the
output has the same number of positions as the input and every output
vector has the same length `d` (the embedding dimension) as every input
vector, given that the block's learned parameters have their build-time
shapes for that dimension. -/
theorem claimC3_block_preserves_shape (ex sq : R → R) (keyDim d : ℕ)
    (p : BlockParams R)
    (hWo : p.Wo.length = d) (hbo : p.bo.length = d)
    (hW2 : p.W2.length = d) (hb2 : p.b2.length = d)
    (hg1 : p.g1.length = d) (hbt1 : p.bt1.length = d)
    (hg2 : p.g2.length = d) (hbt2 : p.bt2.length = d)
    (x : SeqV R) (hx : ∀ v ∈ x, v.length = d) :
    ((TransformerBlock.init ex sq keyDim p).call x).length = x.length ∧
    ∀ v ∈ (TransformerBlock.init ex sq keyDim p).call x, v.length = d := by
  have hcall : (TransformerBlock.init ex sq keyDim p).call x
      = specBlockSteps ex sq keyDim p x := rfl
  rw [hcall]
  unfold specBlockSteps
  set s1 := multiHeadAttention ex sq keyDim p.heads p.Wo p.bo x x with hs1
  have h1l : s1.length = x.length := multiHeadAttention_length _ _ _ _ _ _ _ _
  have h1m : ∀ v ∈ s1, v.length = d :=
    multiHeadAttention_mem_length _ _ _ _ _ _ _ _ d hWo hbo
  set s2 := dropoutS p.mask1 s1 with hs2
  have h2l : s2.length = x.length := by rw [hs2, dropoutS_length, h1l]
  have h2m : ∀ v ∈ s2, v.length = d := dropoutS_mem_length _ _ d h1m
  set r1 := seqAdd x s2 with hr1
  have hr1l : r1.length = x.length := by rw [hr1, seqAdd_length, h2l, min_self]
  have hr1m : ∀ v ∈ r1, v.length = d := seqAdd_mem_length _ _ d hx h2m
  set s3 := layerNormS sq lnEps p.g1 p.bt1 r1 with hs3
  have h3l : s3.length = x.length := by rw [hs3, layerNormS_length, hr1l]
  have h3m : ∀ v ∈ s3, v.length = d :=
    layerNormS_mem_length _ _ _ _ d hg1 hbt1 _ hr1m
  set s4 := denseS id p.W2 p.b2 (denseS relu p.W1 p.b1 s3) with hs4
  have h4l : s4.length = x.length := by
    rw [hs4, denseS_length, denseS_length, h3l]
  have h4m : ∀ v ∈ s4, v.length = d := by
    intro v hv
    have := denseS_mem_length id p.W2 p.b2 (denseS relu p.W1 p.b1 s3) v hv
    rw [this, hW2, hb2, min_self]
  set s5 := dropoutS p.mask2 s4 with hs5
  have h5l : s5.length = x.length := by rw [hs5, dropoutS_length, h4l]
  have h5m : ∀ v ∈ s5, v.length = d := dropoutS_mem_length _ _ d h4m
  set r2 := seqAdd s3 s5 with hr2
  have hr2l : r2.length = x.length := by
    rw [hr2, seqAdd_length, h3l, h5l, min_self]
  have hr2m : ∀ v ∈ r2, v.length = d := seqAdd_mem_length _ _ d h3m h5m
  constructor
  · rw [layerNormS_length, hr2l]
  · exact layerNormS_mem_length _ _ _ _ d hg2 hbt2 _ hr2m

/-- Witness for C3 at a concrete one-head, dimension-1 block over `ℚ`
applied to a two-position input. -/
theorem claimC3_block_preserves_shape_witness :
    (([[(1:ℚ)]] : SeqV ℚ).length = 1) ∧
    (∀ v ∈ ([[3], [4]] : SeqV ℚ), v.length = 1) ∧
    (((TransformerBlock.init (fun t => t) (fun t => t) 1
        (BlockParams.mk [([[1]], [[1]], [[1]])] [[1]] [0] [[1]] [0] [[1]] [0]
          [1] [0] [1] [0] (fun _ _ => 1) (fun _ _ => 1) : BlockParams ℚ)).call
        ([[3], [4]] : SeqV ℚ)).length = ([[3], [4]] : SeqV ℚ).length ∧
      ∀ v ∈ (TransformerBlock.init (fun t => t) (fun t => t) 1
        (BlockParams.mk [([[1]], [[1]], [[1]])] [[1]] [0] [[1]] [0] [[1]] [0]
          [1] [0] [1] [0] (fun _ _ => 1) (fun _ _ => 1) : BlockParams ℚ)).call
        ([[3], [4]] : SeqV ℚ), v.length = 1) :=
  ⟨by decide, by decide,
    claimC3_block_preserves_shape (fun t => t) (fun t => t) 1 1
      (BlockParams.mk [([[1]], [[1]], [[1]])] [[1]] [0] [[1]] [0] [[1]] [0]
        [1] [0] [1] [0] (fun _ _ => 1) (fun _ _ => 1) : BlockParams ℚ)
      (by decide) (by decide) (by decide) (by decide) (by decide) (by decide)
      (by decide) (by decide) ([[3], [4]] : SeqV ℚ) (by decide)⟩

/-! ### The end-to-end model

```
inputs = layers.Input(shape=(maxlen,))
x = TokenAndPositionEmbedding(maxlen, vocab_size, embed_dim)(inputs)
x = TransformerBlock(embed_dim, num_heads, ff_dim)(x)
x = GlobalAveragePooling1D / Dropout / Dense(20, relu) / Dropout / Dense(2, softmax)
```
-/

/-- The full model on one token sequence: embedding, transformer block,
classifier head. -/
def modelForward (ex sq : R → R) (keyDim : ℕ)
    (emb : TokenAndPositionEmbedding R) (p : BlockParams R)
    (m1 m2 : ℕ → R) (W1 : SeqV R) (b1 : Vec R) (W2 : SeqV R) (b2 : Vec R)
    (x : List ℕ) : Option (Vec R) :=
  match emb.call x with
  | some e => some (classifierHead ex m1 m2 W1 b1 W2 b2
      ((TransformerBlock.init ex sq keyDim p).call e))
  | none => none

/-- The full model on a batch: each row is processed independently. -/
def modelBatch (ex sq : R → R) (keyDim : ℕ)
    (emb : TokenAndPositionEmbedding R) (p : BlockParams R)
    (m1 m2 : ℕ → R) (W1 : SeqV R) (b1 : Vec R) (W2 : SeqV R) (b2 : Vec R) :
    List (List ℕ) → Option (SeqV R)
  | [] => some []
  | x :: rest =>
    match modelForward ex sq keyDim emb p m1 m2 W1 b1 W2 b2 x,
        modelBatch ex sq keyDim emb p m1 m2 W1 b1 W2 b2 rest with
    | some o, some os => some (o :: os)
    | _, _ => none

theorem modelForward_valid (ex sq : R → R) (keyDim : ℕ)
    (emb : TokenAndPositionEmbedding R) (p : BlockParams R)
    (m1 m2 : ℕ → R) (W1 : SeqV R) (b1 : Vec R) (W2 : SeqV R) (b2 : Vec R)
    (x : List ℕ) (hex : ∀ t, 0 < ex t)
    (hW2 : W2.length = 2) (hb2 : b2.length = 2)
    (hids : ∀ id ∈ x, id < emb.token_emb.length)
    (hlen : x.length ≤ emb.pos_emb.length) :
    ∃ o, modelForward ex sq keyDim emb p m1 m2 W1 b1 W2 b2 x = some o ∧
      o.length = 2 ∧ ∀ q ∈ o, 0 ≤ q ∧ q ≤ 1 := by
  have hsome := call_eq_some emb x hids hlen
  unfold modelForward
  rw [hsome]
  refine ⟨_, rfl, ?_⟩
  have h := classifierHead_props ex m1 m2 W1 b1 W2 b2
    ((TransformerBlock.init ex sq keyDim p).call
      (seqAdd (x.map (fun id => emb.token_emb.getD id []))
        ((List.range x.length).map (fun i => emb.pos_emb.getD i []))))
    hex hW2 hb2
  exact ⟨h.1, h.2.2⟩

theorem modelBatch_valid (ex sq : R → R) (keyDim : ℕ)
    (emb : TokenAndPositionEmbedding R) (p : BlockParams R)
    (m1 m2 : ℕ → R) (W1 : SeqV R) (b1 : Vec R) (W2 : SeqV R) (b2 : Vec R)
    (batch : List (List ℕ)) (hex : ∀ t, 0 < ex t)
    (hW2 : W2.length = 2) (hb2 : b2.length = 2)
    (hv : ∀ s ∈ batch, (∀ id ∈ s, id < emb.token_emb.length) ∧
      s.length ≤ emb.pos_emb.length) :
    ∃ out, modelBatch ex sq keyDim emb p m1 m2 W1 b1 W2 b2 batch = some out ∧
      out.length = batch.length ∧
      ∀ row ∈ out, row.length = 2 ∧ ∀ q ∈ row, 0 ≤ q ∧ q ≤ 1 := by
  induction batch with
  | nil => exact ⟨[], rfl, rfl, by intro row hrow; simp at hrow⟩
  | cons x rest ih =>
    have hx := hv x (List.mem_cons_self x rest)
    rcases modelForward_valid ex sq keyDim emb p m1 m2 W1 b1 W2 b2 x
      hex hW2 hb2 hx.1 hx.2 with ⟨o, ho, holen, hobnd⟩
    rcases ih (fun s hs => hv s (List.mem_cons_of_mem x hs))
      with ⟨os, hos, hoslen, hosp⟩
    refine ⟨o :: os, ?_, ?_, ?_⟩
    · unfold modelBatch
      rw [ho, hos]
    · rw [List.length_cons, List.length_cons, hoslen]
    · intro row hrow
      rcases List.mem_cons.mp hrow with rfl | hmem
      · exact ⟨holen, hobnd⟩
      · exact hosp row hmem

/-- C6: feeding the end-to-end model a batch of 32 token sequences of
length 200 (the prepared-dataset shape) with all ids in the vocabulary
yields an output of shape (32, 2) whose values all lie in `[0,1]`. -/
theorem claimC6_end_to_end_shape (ex sq : R → R) (keyDim : ℕ)
    (emb : TokenAndPositionEmbedding R) (p : BlockParams R)
    (m1 m2 : ℕ → R) (W1 : SeqV R) (b1 : Vec R) (W2 : SeqV R) (b2 : Vec R)
    (batch : List (List ℕ)) (hex : ∀ t, 0 < ex t)
    (hW2 : W2.length = 2) (hb2 : b2.length = 2)
    (hbatch : batch.length = 32)
    (hrows : ∀ s ∈ batch, s.length = 200 ∧ ∀ id ∈ s, id < emb.token_emb.length)
    (hpos : 200 ≤ emb.pos_emb.length) :
    ∃ out, modelBatch ex sq keyDim emb p m1 m2 W1 b1 W2 b2 batch = some out ∧
      out.length = 32 ∧
      ∀ row ∈ out, row.length = 2 ∧ ∀ q ∈ row, 0 ≤ q ∧ q ≤ 1 := by
  rcases modelBatch_valid ex sq keyDim emb p m1 m2 W1 b1 W2 b2 batch
      hex hW2 hb2
      (fun s hs => ⟨(hrows s hs).2, le_of_eq_of_le (hrows s hs).1 hpos⟩)
    with ⟨out, hout, hlen, hprops⟩
  exact ⟨out, hout, by rw [hlen, hbatch], hprops⟩

/-- Witness for C6 on a concrete batch of 32 length-200 all-zero
sequences over `ℚ`, with a one-word vocabulary and a 200-row position
table. -/
theorem claimC6_end_to_end_shape_witness :
    (0 : ℚ) < 1 ∧
    (List.replicate 32 (List.replicate 200 0) : List (List ℕ)).length = 32 ∧
    (∀ s ∈ (List.replicate 32 (List.replicate 200 0) : List (List ℕ)),
      s.length = 200 ∧ ∀ id ∈ s,
        id < (TokenAndPositionEmbedding.mk [[(1:ℚ)]]
          (List.replicate 200 [1])).token_emb.length) ∧
    ∃ out, modelBatch (fun _ => (1:ℚ)) (fun t => t) 1
        (TokenAndPositionEmbedding.mk [[(1:ℚ)]] (List.replicate 200 [1]))
        (BlockParams.mk [([[1]], [[1]], [[1]])] [[1]] [0] [[1]] [0] [[1]] [0]
          [1] [0] [1] [0] (fun _ _ => 1) (fun _ _ => 1))
        (fun _ => 1) (fun _ => 1) [[1]] [0] [[1], [1]] [0, 0]
        (List.replicate 32 (List.replicate 200 0)) = some out ∧
      out.length = 32 ∧
      ∀ row ∈ out, row.length = 2 ∧ ∀ q ∈ row, 0 ≤ q ∧ q ≤ 1 :=
  ⟨one_pos, by decide, by decide,
    claimC6_end_to_end_shape (fun _ => (1:ℚ)) (fun t => t) 1
      (TokenAndPositionEmbedding.mk [[(1:ℚ)]] (List.replicate 200 [1]))
      (BlockParams.mk [([[1]], [[1]], [[1]])] [[1]] [0] [[1]] [0] [[1]] [0]
        [1] [0] [1] [0] (fun _ _ => 1) (fun _ _ => 1))
      (fun _ => 1) (fun _ => 1) [[1]] [0] [[1], [1]] [0, 0]
      (List.replicate 32 (List.replicate 200 0))
      (fun _ => one_pos) (by decide) (by decide) (by decide) (by decide)
      (by decide)⟩

/-! ### Training

```
model.compile(
    optimizer="adam", loss="sparse_categorical_crossentropy", metrics=["accuracy"]
)
history = model.fit(
    x_train, y_train, batch_size=32, epochs=2, validation_data=(x_val, y_val)
)
```

The optimizer's update rule and the fit loop live in the framework, not in
this repository; only their configuration is code here.  The loop below is
modelled from the spec: a fixed number of passes over the data in
fixed-size batches, reporting loss and accuracy on the held-out validation
split after each pass. -/

/-- The arguments of `model.compile`. -/
structure CompileConfig where
  optimizer : String
  loss : String
  metrics : List String

/-- `model.compile(optimizer="adam", loss="sparse_categorical_crossentropy",
metrics=["accuracy"])`. -/
def compileConfig : CompileConfig :=
  { optimizer := "adam"
    loss := "sparse_categorical_crossentropy"
    metrics := ["accuracy"] }

/-- `batch_size=32` from `model.fit`. -/
def fit_batch_size : ℕ := 32

/-- `epochs=2` from `model.fit`. -/
def fit_epochs : ℕ := 2

/-- Sparse categorical cross-entropy of one prediction against an integer
label: minus the log of the probability assigned to the true class.  `lg`
is the framework's logarithm. -/
def sccLoss (lg : R → R) (pred : Vec R) (label : ℕ) : R :=
  -(lg (pred.getD label 0))

/-- Index of a maximal component, for the accuracy metric. -/
def argmaxIdx (v : Vec R) : ℕ :=
  (List.range v.length).foldl
    (fun best i => if v.getD best 0 < v.getD i 0 then i else best) 0

/-- Arithmetic mean of a list. -/
def mean (l : List R) : R := l.sum / (l.length : R)

/-- Modelled from the spec: the per-epoch validation report of
`Model.fit` (absent from this repository) — mean sparse categorical
cross-entropy and mean accuracy of a predictor on the validation split. -/
def valMetrics {T : Type} (lg : R → R) (predict : T → List ℕ → Vec R)
    (t : T) (val : List (List ℕ × ℕ)) : R × R :=
  (mean (val.map (fun pr => sccLoss lg (predict t pr.1) pr.2)),
   mean (val.map (fun pr => if argmaxIdx (predict t pr.1) = pr.2 then (1 : R) else 0)))

/-- Split a list into consecutive batches of size `k + 1`. -/
def toBatches {A : Type} (k : ℕ) : List A → List (List A)
  | [] => []
  | a :: l => (a :: l.take k) :: toBatches k (l.drop k)
termination_by l => l.length
decreasing_by simp [List.length_drop]; omega

/-- The parameters after `n` full passes of the batched update `step`
starting from `t0`. -/
def paramsAfter {T B : Type} (step : T → B → T) (batches : List B) (t0 : T) :
    ℕ → T
  | 0 => t0
  | n + 1 => batches.foldl step (paramsAfter step batches t0 n)

/-- Modelled from the spec: the epoch loop of `Model.fit` (absent from
this repository).  Each epoch folds the update `step` over all batches and
then records the validation report `ev` of the parameters reached; the
recorded reports come back in epoch order. -/
def fitLoop {T B : Type} (step : T → B → T) (ev : T → R × R)
    (batches : List B) : ℕ → T → T × List (R × R)
  | 0, t => (t, [])
  | n + 1, t =>
    let t2 := batches.foldl step t
    let rest := fitLoop step ev batches n t2
    (rest.1, ev t2 :: rest.2)

/-- Modelled from the spec: `model.fit(x_train, y_train, batch_size=32,
epochs=2, validation_data=(x_val, y_val))` — run `fit_epochs` passes over
the training pairs in batches of `fit_batch_size`, reporting the
validation loss and accuracy after each pass. -/
def fit {T : Type} (lg : R → R) (predict : T → List ℕ → Vec R)
    (step : T → List (List ℕ × ℕ) → T) (t0 : T)
    (train val : List (List ℕ × ℕ)) : T × List (R × R) :=
  fitLoop step (fun t => valMetrics lg predict t val)
    (toBatches (fit_batch_size - 1) train) fit_epochs t0

theorem toBatches_mem_le_aux {A : Type} (k : ℕ) :
    ∀ (n : ℕ) (l : List A), l.length ≤ n →
      ∀ b ∈ toBatches k l, b.length ≤ k + 1 := by
  intro n
  induction n with
  | zero =>
    intro l hl b hb
    have : l = [] := List.length_eq_zero.mp (Nat.le_zero.mp hl)
    subst this
    simp [toBatches] at hb
  | succ n ih =>
    intro l hl b hb
    match l with
    | [] => simp [toBatches] at hb
    | a :: t =>
      rw [show toBatches k (a :: t) = (a :: t.take k) :: toBatches k (t.drop k)
        from by rw [toBatches]] at hb
      rcases List.mem_cons.mp hb with rfl | hmem
      · rw [List.length_cons, List.length_take]
        omega
      · refine ih (t.drop k) ?_ b hmem
        rw [List.length_drop]
        rw [List.length_cons] at hl
        omega

theorem toBatches_mem_le {A : Type} (k : ℕ) (l : List A) :
    ∀ b ∈ toBatches k l, b.length ≤ k + 1 :=
  toBatches_mem_le_aux k l.length l (le_refl _)

theorem fitLoop_snd_length {T B : Type} (step : T → B → T) (ev : T → R × R)
    (batches : List B) :
    ∀ (n : ℕ) (t : T), (fitLoop step ev batches n t).2.length = n := by
  intro n
  induction n with
  | zero => intro t; rfl
  | succ n ih =>
    intro t
    simp only [fitLoop, List.length_cons, ih]

theorem paramsAfter_shift {T B : Type} (step : T → B → T) (batches : List B)
    (t : T) : ∀ n : ℕ,
      paramsAfter step batches (batches.foldl step t) n
        = paramsAfter step batches t (n + 1) := by
  intro n
  induction n with
  | zero => rfl
  | succ n ih => simp only [paramsAfter, ih]

theorem fitLoop_snd_getD {T B : Type} (step : T → B → T) (ev : T → R × R)
    (batches : List B) :
    ∀ (n e : ℕ) (t : T), e < n →
      (fitLoop step ev batches n t).2.getD e (0, 0)
        = ev (paramsAfter step batches t (e + 1)) := by
  intro n
  induction n with
  | zero => intro e t he; omega
  | succ n ih =>
    intro e t he
    match e with
    | 0 => rfl
    | e + 1 =>
      have he' : e < n := by omega
      show (fitLoop step ev batches n (batches.foldl step t)).2.getD e (0, 0) = _
      rw [ih e (batches.foldl step t) he', paramsAfter_shift]

/-- C7: the training loop is configured with sparse categorical
cross-entropy as loss, the fixed `adam` optimizer and the accuracy metric;
it runs exactly 2 passes over the data in batches of size (at most) 32,
and after each pass it reports loss and accuracy computed on the held-out
validation split with the parameters reached by that pass. -/
theorem claimC7_training_configuration {T : Type} (lg : R → R)
    (predict : T → List ℕ → Vec R) (step : T → List (List ℕ × ℕ) → T)
    (t0 : T) (train val : List (List ℕ × ℕ)) :
    compileConfig.loss = "sparse_categorical_crossentropy" ∧
    compileConfig.optimizer = "adam" ∧
    compileConfig.metrics = ["accuracy"] ∧
    fit_epochs = 2 ∧ fit_batch_size = 32 ∧
    (∀ b ∈ toBatches (fit_batch_size - 1) train, b.length ≤ 32) ∧
    (fit lg predict step t0 train val).2.length = fit_epochs ∧
    ∀ e, e < fit_epochs →
      (fit lg predict step t0 train val).2.getD e (0, 0)
        = valMetrics lg predict
            (paramsAfter step (toBatches (fit_batch_size - 1) train) t0 (e + 1))
            val := by
  refine ⟨rfl, rfl, rfl, rfl, rfl, ?_, ?_, ?_⟩
  · intro b hb
    exact toBatches_mem_le _ train b hb
  · exact fitLoop_snd_length _ _ _ fit_epochs t0
  · intro e he
    exact fitLoop_snd_getD _ _ _ fit_epochs e t0 he

/-- Witness for C7 at a concrete trivial instance over `ℚ`. -/
theorem claimC7_training_configuration_witness :
    compileConfig.loss = "sparse_categorical_crossentropy" ∧
    compileConfig.optimizer = "adam" ∧
    compileConfig.metrics = ["accuracy"] ∧
    fit_epochs = 2 ∧ fit_batch_size = 32 ∧
    (∀ b ∈ toBatches (fit_batch_size - 1) ([([3], 1)] : List (List ℕ × ℕ)),
      b.length ≤ 32) ∧
    (fit (fun t => t) (fun (_ : ℕ) _ => ([] : Vec ℚ)) (fun t _ => t) 0
      ([([3], 1)] : List (List ℕ × ℕ)) []).2.length = fit_epochs ∧
    ∀ e, e < fit_epochs →
      (fit (fun t => t) (fun (_ : ℕ) _ => ([] : Vec ℚ)) (fun t _ => t) 0
        ([([3], 1)] : List (List ℕ × ℕ)) []).2.getD e (0, 0)
        = valMetrics (fun t => t) (fun (_ : ℕ) _ => ([] : Vec ℚ))
            (paramsAfter (fun t _ => t)
              (toBatches (fit_batch_size - 1) ([([3], 1)] : List (List ℕ × ℕ)))
              0 (e + 1)) [] :=
  claimC7_training_configuration (fun t => t) (fun (_ : ℕ) _ => ([] : Vec ℚ))
    (fun t _ => t) 0 ([([3], 1)] : List (List ℕ × ℕ)) []

end TextClassifier
